import Mathlib

/-!
Verification of the patch-applier behaviour of the two maintenance scripts
`client/fix_jsx.py` and `patch_order_controller.py`.

Documents are modelled as lists of characters (`Chars`); the Python string
operations used by the scripts (`in`, `str.replace`, `str.split('\n')`,
`'\n'.join`, `str.strip`) are embedded as executable Lean functions, and the
two scripts' in-memory transformations are `fixJsx` and `patchOrderController`.
The spec's generic patch-rule abstraction (`PatchRule`, `PatchResult`,
`applyLineEdit`, `applyBlockReplace`, ordered rule application) is defined as
stated by the spec and linked to the concrete script transformations.
-/

namespace PatchApplier

/-- Document content: a Python string, as its list of characters. -/
abbrev Chars := List Char

/-- Characters of a Lean string literal, for writing the scripts' literals. -/
def str (s : String) : Chars := s.data

/-- Python substring test `pat in s` (literal containment; `'' in s` is true). -/
def occursIn (pat : Chars) : Chars → Bool
  | [] => pat.isEmpty
  | c :: rest => pat.isPrefixOf (c :: rest) || occursIn pat rest

/-- Python `s.replace(pat, rep)`: replace every occurrence of `pat` in `s` by
`rep`, scanning left to right over non-overlapping occurrences. -/
def replaceAll (pat rep : Chars) : Chars → Chars
  | [] => if pat = [] then rep else []
  | c :: rest =>
    if pat.isPrefixOf (c :: rest) ∧ pat ≠ [] then
      rep ++ replaceAll pat rep (List.drop pat.length (c :: rest))
    else
      (if pat = [] then rep else []) ++ c :: replaceAll pat rep rest
  termination_by s => s.length
  decreasing_by
  · simp only [List.length_drop, List.length_cons]
    cases pat with
    | nil => simp_all
    | cons p ps => simp; omega
  · simp

/-- Structurally recursive evaluator for `replaceAll`: a pending `skip` count
stands for characters of an already-matched occurrence still to be consumed.
Used to compute `replaceAll` on concrete inputs inside the kernel. -/
def replGo (pat rep : Chars) : Nat → Chars → Chars
  | _, [] => if pat = [] then rep else []
  | skip + 1, _ :: rest => replGo pat rep skip rest
  | 0, c :: rest =>
    if pat.isPrefixOf (c :: rest) ∧ pat ≠ [] then
      rep ++ replGo pat rep (pat.length - 1) rest
    else
      (if pat = [] then rep else []) ++ c :: replGo pat rep 0 rest

/-- Python `content.split('\n')`: split on every newline; `n` newlines give
`n + 1` fields, and the empty string gives one empty field. -/
def splitNl : Chars → List Chars
  | [] => [[]]
  | c :: rest =>
    if c = '\n' then [] :: splitNl rest
    else
      match splitNl rest with
      | [] => [[c]]
      | l :: ls => (c :: l) :: ls

/-- Python `'\n'.join(lines)`. -/
def joinNl : List Chars → Chars
  | [] => []
  | [l] => l
  | l :: l2 :: ls => l ++ '\n' :: joinNl (l2 :: ls)

/-- Python `s.strip()`: remove leading and trailing whitespace. -/
def pyStrip (s : Chars) : Chars :=
  ((s.dropWhile Char.isWhitespace).reverse.dropWhile Char.isWhitespace).reverse

/-- Hard-coded target path of fix_jsx.py. -/
def jsxFilePath : String :=
  "c:\\Users\\mando\\OneDrive\\Desktop\\p24\\print-24-updated\\client\\pages\\GlossProductSelection.tsx"

/-- Hard-coded target path of patch_order_controller.py. -/
def controllerFilePath : String :=
  "c:\\Users\\Suraj\\Desktop\\print-24-updated\\server\\src\\controllers\\orderController.js"

/-- Guarded edit of fix_jsx.py at line index 5084:
`if 5084 < len(lines) and '</>' in lines[5084]:
   lines[5084] = lines[5084].replace('</>', '')`. -/
def fixLine5084 (lines : List Chars) : List Chars :=
  if 5084 < lines.length ∧ occursIn (str "</>") (lines.getD 5084 []) then
    lines.set 5084 (replaceAll (str "</>") [] (lines.getD 5084 []))
  else lines

/-- Guarded block of fix_jsx.py at line index 5092; its inner branch is `pass`:
`if 5092 < len(lines): if lines[5092].strip() == ')}': pass`. -/
def fixLine5092 (lines : List Chars) : List Chars :=
  if 5092 < lines.length then
    if pyStrip (lines.getD 5092 []) = str ")\x7d" then lines else lines
  else lines

/-- Guarded edit of fix_jsx.py at line index 5099; the guard tests for the
substring `'</ >'` while the mutation removes `'</>'`:
`if 5099 < len(lines) and '</ >' in lines[5099]:
   lines[5099] = lines[5099].replace('</>', '')`. -/
def fixLine5099 (lines : List Chars) : List Chars :=
  if 5099 < lines.length ∧ occursIn (str "</ >") (lines.getD 5099 []) then
    lines.set 5099 (replaceAll (str "</>") [] (lines.getD 5099 []))
  else lines

/-- Whole in-memory transformation of fix_jsx.py: split on newlines, apply the
three guarded line edits in order, join with newlines. -/
def fixJsx (content : Chars) : Chars :=
  joinNl (fixLine5099 (fixLine5092 (fixLine5084 (splitNl content))))

/-- Search text of the first replacement in patch_order_controller.py. -/
def old1 : Chars :=
  str "      \x7d else if (!needDesigner) \x7b\n        return res.status(400).json(\x7b error: \"Front image is required.\" \x7d);\n      \x7d"

/-- Replacement text of the first replacement in patch_order_controller.py. -/
def new1 : Chars :=
  str "      \x7d else if (!needDesigner && !req.body.needDesigner) \x7b\n        return res.status(400).json(\x7b error: \"Front image is required for regular orders.\" \x7d);\n      \x7d"

/-- Search text of the second replacement in patch_order_controller.py. -/
def old2 : Chars :=
  str "    \x7d else \x7b\n      return res.status(400).json(\x7b error: \"Uploaded design is required.\" \x7d);\n    \x7d"

/-- Replacement text of the second replacement in patch_order_controller.py. -/
def new2 : Chars :=
  str "    \x7d else \x7b\n      // If we don\x27t have uploadedDesign, we only allow it if needDesigner is true \n      const isDesignerOrder = needDesigner === true || needDesigner === \"true\" || req.body.needDesigner === true || req.body.needDesigner === \"true\";\n      if (!isDesignerOrder) \x7b\n        return res.status(400).json(\x7b error: \"Uploaded design is required for regular orders.\" \x7d);\n      \x7d\n    \x7d"

/-- Whole in-memory transformation of patch_order_controller.py:
`patched_content = content.replace(old1, new1)` then
`patched_content = patched_content.replace(old2, new2)`. -/
def patchOrderController (content : Chars) : Chars :=
  replaceAll old2 new2 (replaceAll old1 new1 content)

/-- Applying the complete ordered rule set of the repository: first the line
edits of fix_jsx.py, then the block replacements of patch_order_controller.py. -/
def applyScripts (content : Chars) : Chars :=
  patchOrderController (fixJsx content)

/-- Document of 5085 lines whose line at index 5084 is `"<</>/>"`: removing
every occurrence of `"</>"` from that line leaves exactly `"</>"`, a fresh
occurrence of the removed substring. -/
def badContent : Chars := List.replicate 5084 '\n' ++ str "<</>/>"

/-- Modelled from the spec: outcome of applying one patch rule. -/
inductive PatchResult
  | applied
  | skipped
  deriving DecidableEq

/-- Modelled from the spec: a patch rule is either a guarded line edit or a
whole-content block replacement. -/
inductive PatchRule
  | lineEdit (idx : Nat) (pred : Chars → Bool) (transform : Chars → Chars)
  | blockReplace (old new : Chars)

/-- Modelled from the spec: `applyLineEdit(doc, lineIndex, predicate, transform)`.
Out-of-bounds indices are skipped; otherwise the line is transformed exactly
when the predicate holds on it. -/
def applyLineEdit (lines : List Chars) (idx : Nat) (pred : Chars → Bool)
    (tr : Chars → Chars) : List Chars × PatchResult :=
  if h : idx < lines.length then
    if pred (lines.get ⟨idx, h⟩) then
      (lines.set idx (tr (lines.get ⟨idx, h⟩)), .applied)
    else (lines, .skipped)
  else (lines, .skipped)

/-- Modelled from the spec: `applyBlockReplace(doc, old, new)`. If `old` occurs
verbatim, replace all occurrences by `new` and report `applied`; otherwise
report `skipped`. -/
def applyBlockReplace (content : Chars) (old new : Chars) : Chars × PatchResult :=
  if occursIn old content then (replaceAll old new content, .applied)
  else (content, .skipped)

/-- Modelled from the spec: apply one rule to the document content. A line
edit goes through the line view of the document. -/
def applyRule (content : Chars) : PatchRule → Chars × PatchResult
  | .lineEdit idx pred tr =>
    (joinNl (applyLineEdit (splitNl content) idx pred tr).1,
      (applyLineEdit (splitNl content) idx pred tr).2)
  | .blockReplace o n => applyBlockReplace content o n

/-- Modelled from the spec: apply rules strictly in the order given, each rule
seeing the effects of the earlier ones. -/
def applyRules (content : Chars) : List PatchRule → Chars
  | [] => content
  | r :: rs => applyRules (applyRule content r).1 rs

/-- Modelled from the spec: like `applyRules`, but also collect the
`PatchResult` of every rule in order. -/
def applyRulesResults (content : Chars) : List PatchRule → Chars × List PatchResult
  | [] => (content, [])
  | r :: rs =>
    ((applyRulesResults (applyRule content r).1 rs).1,
      (applyRule content r).2 :: (applyRulesResults (applyRule content r).1 rs).2)

/-- First line-edit rule of fix_jsx.py as a `PatchRule`. -/
def rule5084 : PatchRule :=
  .lineEdit 5084 (occursIn (str "</>")) (replaceAll (str "</>") [])

/-- Second (dead) line-edit rule of fix_jsx.py as a `PatchRule`: the guard is
the strip comparison and the `pass` branch is the identity transformation. -/
def rule5092 : PatchRule :=
  .lineEdit 5092 (fun line => decide (pyStrip line = str ")\x7d")) id

/-- Third line-edit rule of fix_jsx.py as a `PatchRule`. -/
def rule5099 : PatchRule :=
  .lineEdit 5099 (occursIn (str "</ >")) (replaceAll (str "</>") [])

/-- The complete ordered rule set of the repository: the three line edits of
fix_jsx.py followed by the two block replacements of patch_order_controller.py. -/
def fullRules : List PatchRule :=
  [rule5084, rule5092, rule5099, .blockReplace old1 new1, .blockReplace old2 new2]

/-- Modelled from the spec: whether a rule's match condition holds on a
document (substring present for a block replacement; index in bounds and
predicate true on the addressed line for a line edit). -/
def ruleMatches (content : Chars) : PatchRule → Bool
  | .lineEdit idx pred _ =>
    decide (idx < (splitNl content).length) && pred ((splitNl content).getD idx [])
  | .blockReplace o _ => occursIn o content

/-- Modelled from the spec: a document is in the already-patched state for a
rule set when no rule's match condition holds on it. -/
def noneMatches (content : Chars) (rules : List PatchRule) : Bool :=
  rules.all fun r => !ruleMatches content r

/-- File-system state: maps a path to the content of the file there, if any. -/
abbrev FileSystem := String → Option Chars

/-- Run of fix_jsx.py against a file-system state: read the hard-coded path,
transform in memory, write back to the same path. A failed read aborts the run
before any write; the Boolean reports success. -/
def runFixJsxScript (fs : FileSystem) : FileSystem × Bool :=
  match fs jsxFilePath with
  | none => (fs, false)
  | some content =>
    (fun p => if p = jsxFilePath then some (fixJsx content) else fs p, true)

/-- Run of patch_order_controller.py against a file-system state, with the
same read-modify-write structure as `runFixJsxScript`. -/
def runPatchOrderControllerScript (fs : FileSystem) : FileSystem × Bool :=
  match fs controllerFilePath with
  | none => (fs, false)
  | some content =>
    (fun p => if p = controllerFilePath then some (patchOrderController content) else fs p,
      true)

/-! ### Basic lemmas about the string operations -/

lemma replGo_skip (pat rep : Chars) (t : Chars) :
    ∀ k, replGo pat rep k t = replGo pat rep 0 (List.drop k t) := by
  induction t with
  | nil => intro k; cases k <;> simp [replGo]
  | cons c rest ih =>
    intro k
    cases k with
    | zero => simp
    | succ k => simpa [replGo] using ih k

/-- The faithful `replaceAll` and its structural evaluator agree. -/
lemma replaceAll_eq_replGo (pat rep : Chars) (s : Chars) :
    replaceAll pat rep s = replGo pat rep 0 s := by
  induction s using replaceAll.induct pat rep with
  | case1 h => simp [replaceAll, replGo]
  | case2 h => simp [replaceAll, replGo]
  | case3 c rest h ih =>
    have hd : List.drop pat.length (c :: rest) = List.drop (pat.length - 1) rest := by
      cases pat with
      | nil => exact absurd rfl h.2
      | cons p ps => simp
    rw [replaceAll, replGo, if_pos h, if_pos h, ih, hd, replGo_skip pat rep rest]
  | case4 c rest h ih =>
    rw [replaceAll, replGo, if_neg h, if_neg h, ih]

/-- Replacing a pattern that does not occur is the identity. -/
lemma replaceAll_of_not_occurs {pat : Chars} (rep : Chars) {s : Chars}
    (h : occursIn pat s = false) : replaceAll pat rep s = s := by
  induction s using replaceAll.induct pat rep with
  | case1 hp => rw [occursIn] at h; simp [hp] at h
  | case2 hp => simp [replaceAll, hp]
  | case3 c rest hp ih =>
    rw [occursIn] at h
    simp only [Bool.or_eq_false_iff] at h
    simp [hp.1] at h
  | case4 c rest hp ih =>
    rw [occursIn] at h
    simp only [Bool.or_eq_false_iff] at h
    have hpat : pat ≠ [] := by
      intro he
      subst he
      simp [List.isPrefixOf] at h
    rw [replaceAll, if_neg hp, if_neg hpat, ih h.2]
    simp

/-- Every character of a replacement result comes from the replacement text or
from the original string. -/
lemma mem_replaceAll {pat rep s : Chars} {c : Char}
    (h : c ∈ replaceAll pat rep s) : c ∈ rep ∨ c ∈ s := by
  induction s using replaceAll.induct pat rep with
  | case1 hp =>
    rw [replaceAll] at h
    simp [hp] at h
    exact Or.inl h
  | case2 hp =>
    rw [replaceAll] at h
    simp [hp] at h
  | case3 x rest hp ih =>
    rw [replaceAll, if_pos hp] at h
    rcases List.mem_append.1 h with h1 | h1
    · exact Or.inl h1
    · rcases ih h1 with h2 | h2
      · exact Or.inl h2
      · exact Or.inr (List.mem_of_mem_drop h2)
  | case4 x rest hp ih =>
    rw [replaceAll, if_neg hp] at h
    rcases List.mem_append.1 h with h1 | h1
    · rcases Classical.em (pat = []) with hp' | hp' <;> simp [hp'] at h1
      exact Or.inl h1
    · rcases List.mem_cons.1 h1 with h2 | h2
      · exact Or.inr (h2 ▸ List.mem_cons_self _ _)
      · rcases ih h2 with h3 | h3
        · exact Or.inl h3
        · exact Or.inr (List.mem_cons_of_mem _ h3)

/-- A nonempty pattern whose first character is absent from a string does not
occur in it. -/
lemma occursIn_eq_false_of_head (p : Char) (pt : Chars) {s : Chars}
    (h : p ∉ s) : occursIn (p :: pt) s = false := by
  induction s with
  | nil => simp [occursIn]
  | cons c rest ih =>
    have hpc : p ≠ c := fun he => h (he ▸ List.mem_cons_self _ _)
    rw [occursIn]
    simp only [Bool.or_eq_false_iff]
    constructor
    · simp [List.isPrefixOf, hpc]
    · exact ih fun hm => h (List.mem_cons_of_mem _ hm)

/-- A nonempty pattern that is a Boolean prefix of a string occurs in it. -/
lemma occursIn_of_isPrefixOf {pat t : Chars} (hne : pat ≠ [])
    (h : pat.isPrefixOf t = true) : occursIn pat t = true := by
  cases t with
  | nil =>
    cases pat with
    | nil => exact absurd rfl hne
    | cons p ps => simp [List.isPrefixOf] at h
  | cons c rest => rw [occursIn]; simp [h]

/-! ### Basic lemmas about the line view -/

lemma splitNl_ne_nil (s : Chars) : splitNl s ≠ [] := by
  cases s with
  | nil => simp [splitNl]
  | cons c rest =>
    rw [splitNl]
    split
    · simp
    · split <;> simp

/-- Joining the split of any content restores the content exactly. -/
lemma joinNl_splitNl (s : Chars) : joinNl (splitNl s) = s := by
  induction s with
  | nil => simp [splitNl, joinNl]
  | cons c rest ih =>
    rw [splitNl]
    split
    · rename_i hc
      obtain ⟨l, ls, hls⟩ : ∃ l ls, splitNl rest = l :: ls := by
        cases hsp : splitNl rest with
        | nil => exact absurd hsp (splitNl_ne_nil rest)
        | cons l ls => exact ⟨l, ls, rfl⟩
      rw [hls]
      rw [hls] at ih
      subst hc
      simpa [joinNl] using ih
    · cases hsp : splitNl rest with
      | nil => exact absurd hsp (splitNl_ne_nil rest)
      | cons l ls =>
        rw [hsp] at ih
        cases ls with
        | nil => simp_all [joinNl]
        | cons l2 ls' => simp_all [joinNl]

/-- Content without a newline splits into a single line. -/
lemma splitNl_of_not_newline {s : Chars} (h : '\n' ∉ s) : splitNl s = [s] := by
  induction s with
  | nil => simp [splitNl]
  | cons c rest ih =>
    have hc : c ≠ '\n' := fun he => h (he ▸ List.mem_cons_self _ _)
    rw [splitNl, if_neg hc, ih fun hm => h (List.mem_cons_of_mem _ hm)]

/-- Splitting after a leading newline-free line. -/
lemma splitNl_append_newline {l : Chars} (t : Chars) (h : '\n' ∉ l) :
    splitNl (l ++ '\n' :: t) = l :: splitNl t := by
  induction l with
  | nil => simp [splitNl]
  | cons c rest ih =>
    have hc : c ≠ '\n' := fun he => h (he ▸ List.mem_cons_self _ _)
    rw [List.cons_append, splitNl, if_neg hc,
      ih fun hm => h (List.mem_cons_of_mem _ hm)]

/-- Splitting the join of nonempty newline-free lines restores the lines. -/
lemma splitNl_joinNl {ls : List Chars} (hne : ls ≠ [])
    (h : ∀ l ∈ ls, '\n' ∉ l) : splitNl (joinNl ls) = ls := by
  induction ls with
  | nil => exact absurd rfl hne
  | cons l rest ih =>
    cases rest with
    | nil =>
      rw [joinNl, splitNl_of_not_newline (h l (List.mem_cons_self _ _))]
    | cons l2 rest' =>
      rw [joinNl, splitNl_append_newline _ (h l (List.mem_cons_self _ _)),
        ih (by simp) fun x hx => h x (List.mem_cons_of_mem _ hx)]

/-- Lines produced by splitting contain no newline. -/
lemma not_newline_of_mem_splitNl {s l : Chars} (h : l ∈ splitNl s) : '\n' ∉ l := by
  induction s generalizing l with
  | nil =>
    simp [splitNl] at h
    simp [h]
  | cons c rest ih =>
    rw [splitNl] at h
    by_cases hc : c = '\n'
    · rw [if_pos hc] at h
      rcases List.mem_cons.1 h with h1 | h1
      · simp [h1]
      · exact ih h1
    · rw [if_neg hc] at h
      cases hsp : splitNl rest with
      | nil => exact absurd hsp (splitNl_ne_nil rest)
      | cons l0 ls0 =>
        rw [hsp] at h
        rcases List.mem_cons.1 h with h1 | h1
        · subst h1
          intro hm
          rcases List.mem_cons.1 hm with h2 | h2
          · exact hc h2.symm
          · exact ih (hsp ▸ List.mem_cons_self _ _) h2
        · exact ih (hsp ▸ List.mem_cons_of_mem _ h1)

/-! ### Helper lemmas about list indexing -/

lemma set_getD_self {α : Type} (l : List α) (i : Nat) (d : α) :
    l.set i (l.getD i d) = l := by
  induction l generalizing i with
  | nil => simp
  | cons c rest ih =>
    cases i with
    | zero => simp
    | succ i => simpa using ih i

lemma getD_replicate_append {α : Type} (n : Nat) (x y d : α) :
    (List.replicate n x ++ [y]).getD n d = y := by
  induction n with
  | zero => simp
  | succ n ih => simp [List.replicate_succ, ih]

lemma set_replicate_append {α : Type} (n : Nat) (x y z : α) :
    (List.replicate n x ++ [y]).set n z = List.replicate n x ++ [z] := by
  induction n with
  | zero => simp
  | succ n ih => simp [List.replicate_succ, ih]

lemma splitNl_replicate_newline (n : Nat) (s : Chars) :
    splitNl (List.replicate n '\n' ++ s) = List.replicate n [] ++ splitNl s := by
  induction n with
  | zero => simp
  | succ n ih => simp [List.replicate_succ, splitNl, ih]

lemma joinNl_replicate_nil (n : Nat) (s : Chars) :
    joinNl (List.replicate n [] ++ [s]) = List.replicate n '\n' ++ s := by
  induction n with
  | zero => simp [joinNl]
  | succ n ih =>
    rw [List.replicate_succ, List.cons_append]
    cases hn : List.replicate n ([] : Chars) ++ [s] with
    | nil => simp at hn
    | cons l2 ls =>
      rw [joinNl, ← hn, ih, List.replicate_succ, List.cons_append, List.nil_append]

/-! ### Lemmas about the generic rule application -/

/-- Characterisation of `applyLineEdit` through `getD`, reducible in the kernel. -/
lemma applyLineEdit_getD (lines : List Chars) (idx : Nat) (pred : Chars → Bool)
    (tr : Chars → Chars) :
    applyLineEdit lines idx pred tr =
      (if decide (idx < lines.length) && pred (lines.getD idx []) then
          lines.set idx (tr (lines.getD idx []))
        else lines,
        if decide (idx < lines.length) && pred (lines.getD idx []) then
          PatchResult.applied
        else PatchResult.skipped) := by
  by_cases h : idx < lines.length
  · have hg : lines.get ⟨idx, h⟩ = lines.getD idx [] := by
      rw [List.getD_eq_getElem _ _ h, List.get_eq_getElem]
    rw [applyLineEdit, dif_pos h, hg]
    by_cases hp : pred (lines.getD idx []) = true
    · have hc : (decide (idx < lines.length) && pred (lines.getD idx [])) = true := by
        rw [hp, Bool.and_true, decide_eq_true_eq]
        exact h
      rw [if_pos hp, if_pos hc, if_pos hc]
    · have hc : ¬(decide (idx < lines.length) && pred (lines.getD idx [])) = true := by
        rw [Bool.and_eq_true]
        exact fun hx => hp hx.2
      rw [if_neg hp, if_neg hc, if_neg hc]
  · rw [applyLineEdit, dif_neg h]
    have hc : ¬(decide (idx < lines.length) && pred (lines.getD idx [])) = true := by
      rw [Bool.and_eq_true, decide_eq_true_eq]
      exact fun hx => h hx.1
    rw [if_neg hc, if_neg hc]

/-- The document component of `applyLineEdit`, as a guarded update. -/
lemma applyLineEdit_fst (lines : List Chars) (idx : Nat) (pred : Chars → Bool)
    (tr : Chars → Chars) :
    (applyLineEdit lines idx pred tr).1 =
      if idx < lines.length ∧ pred (lines.getD idx []) then
        lines.set idx (tr (lines.getD idx []))
      else lines := by
  rw [applyLineEdit_getD]
  by_cases h1 : idx < lines.length <;> by_cases h2 : pred (lines.getD idx []) = true <;>
    simp [h1, h2]

/-- The document component of `applyBlockReplace` is always the full literal
replacement (a no-op when the search text is absent). -/
lemma applyBlockReplace_fst (content o n : Chars) :
    (applyBlockReplace content o n).1 = replaceAll o n content := by
  rw [applyBlockReplace]
  by_cases h : occursIn o content = true
  · rw [if_pos h]
  · rw [if_neg h, replaceAll_of_not_occurs n (Bool.eq_false_iff.mpr h)]

/-- Kernel-reducible form of `applyBlockReplace`. -/
lemma applyBlockReplace_eval (content o n : Chars) :
    applyBlockReplace content o n =
      (if occursIn o content then replGo o n 0 content else content,
        if occursIn o content then PatchResult.applied else PatchResult.skipped) := by
  rw [applyBlockReplace]
  by_cases h : occursIn o content = true
  · simp [h, replaceAll_eq_replGo]
  · simp [h]

/-- The dead guarded block at index 5092 never changes the lines. -/
lemma fixLine5092_eq (lines : List Chars) : fixLine5092 lines = lines := by
  rw [fixLine5092]
  split
  · split <;> rfl
  · rfl

lemma fixLine5084_eq_applyLineEdit (lines : List Chars) :
    fixLine5084 lines =
      (applyLineEdit lines 5084 (occursIn (str "</>")) (replaceAll (str "</>") [])).1 := by
  rw [applyLineEdit_fst, fixLine5084]

lemma fixLine5099_eq_applyLineEdit (lines : List Chars) :
    fixLine5099 lines =
      (applyLineEdit lines 5099 (occursIn (str "</ >")) (replaceAll (str "</>") [])).1 := by
  rw [applyLineEdit_fst, fixLine5099]

lemma applyLineEdit_rule5092_fst (lines : List Chars) :
    (applyLineEdit lines 5092 (fun line => decide (pyStrip line = str ")\x7d")) id).1 =
      lines := by
  rw [applyLineEdit_fst]
  split
  · exact set_getD_self lines 5092 []
  · rfl

/-- A rule whose match condition fails is a silent skip. -/
lemma applyRule_of_not_matches {content : Chars} {r : PatchRule}
    (h : ruleMatches content r = false) : applyRule content r = (content, .skipped) := by
  cases r with
  | lineEdit idx pred tr =>
    rw [ruleMatches] at h
    rw [applyRule, applyLineEdit_getD, h]
    simp [joinNl_splitNl]
  | blockReplace o n =>
    rw [ruleMatches] at h
    rw [applyRule, applyBlockReplace, h]
    simp

/-- On an already-patched document (no rule matches) the whole rule set
reports only skips and leaves the content unchanged. -/
lemma applyRulesResults_of_noneMatches {content : Chars} {rules : List PatchRule}
    (h : noneMatches content rules = true) :
    applyRulesResults content rules =
      (content, List.replicate rules.length PatchResult.skipped) := by
  induction rules with
  | nil => simp [applyRulesResults]
  | cons r rs ih =>
    rw [noneMatches, List.all_cons, Bool.and_eq_true] at h
    have hr : ruleMatches content r = false := by simpa using h.1
    have h2 : noneMatches content rs = true := h.2
    rw [applyRulesResults, applyRule_of_not_matches hr]
    simp only
    rw [ih h2]
    simp [List.replicate_succ]

lemma applyRules_of_noneMatches {content : Chars} {rules : List PatchRule}
    (h : noneMatches content rules = true) : applyRules content rules = content := by
  induction rules with
  | nil => rfl
  | cons r rs ih =>
    rw [noneMatches, List.all_cons, Bool.and_eq_true] at h
    have hr : ruleMatches content r = false := by simpa using h.1
    rw [applyRules, applyRule_of_not_matches hr]
    exact ih h.2

/-- Ordered rule application is the left fold of single-rule application. -/
lemma applyRules_eq_foldl (content : Chars) (rules : List PatchRule) :
    applyRules content rules =
      rules.foldl (fun acc r => (applyRule acc r).1) content := by
  induction rules generalizing content with
  | nil => rfl
  | cons r rs ih => rw [applyRules, List.foldl_cons, ih]

/-! ### Linking the rule set to the concrete scripts -/

lemma not_newline_set_replaceAll {lines : List Chars} {idx : Nat} (pat : Chars)
    (h : ∀ l ∈ lines, '\n' ∉ l) (hlt : idx < lines.length) :
    ∀ l ∈ lines.set idx (replaceAll pat [] (lines.getD idx [])), '\n' ∉ l := by
  intro l hl
  rcases List.mem_or_eq_of_mem_set hl with h1 | h1
  · exact h l h1
  · subst h1
    intro hm
    rcases mem_replaceAll hm with h2 | h2
    · simp at h2
    · refine h _ ?_ h2
      rw [List.getD_eq_getElem _ _ hlt]
      exact List.getElem_mem _

lemma not_newline_fixLine5084 {lines : List Chars} (h : ∀ l ∈ lines, '\n' ∉ l) :
    ∀ l ∈ fixLine5084 lines, '\n' ∉ l := by
  rw [fixLine5084]
  split
  · rename_i hc
    exact not_newline_set_replaceAll _ h hc.1
  · exact h

lemma fixLine5084_ne_nil {lines : List Chars} (h : lines ≠ []) :
    fixLine5084 lines ≠ [] := by
  rw [fixLine5084]
  split
  · intro he
    have hlen := congrArg List.length he
    rw [List.length_set] at hlen
    exact h (List.length_eq_zero.mp hlen)
  · exact h

/-- Applying the five concrete rules through the generic machinery is exactly
running fix_jsx.py followed by patch_order_controller.py. -/
lemma applyRules_fullRules_eq (content : Chars) :
    applyRules content fullRules = applyScripts content := by
  have h0 : ∀ l ∈ splitNl content, '\n' ∉ l := fun _ hl => not_newline_of_mem_splitNl hl
  have h1 : ∀ l ∈ fixLine5084 (splitNl content), '\n' ∉ l := not_newline_fixLine5084 h0
  have hne1 : fixLine5084 (splitNl content) ≠ [] := fixLine5084_ne_nil (splitNl_ne_nil content)
  have e1 : (applyRule content rule5084).1 = joinNl (fixLine5084 (splitNl content)) := by
    simp only [rule5084, applyRule]
    rw [← fixLine5084_eq_applyLineEdit]
  have e2 : (applyRule (applyRule content rule5084).1 rule5092).1 =
      joinNl (fixLine5084 (splitNl content)) := by
    rw [e1]
    simp only [rule5092, applyRule]
    rw [splitNl_joinNl hne1 h1, applyLineEdit_rule5092_fst]
  have e3 : (applyRule (applyRule (applyRule content rule5084).1 rule5092).1 rule5099).1 =
      joinNl (fixLine5099 (fixLine5084 (splitNl content))) := by
    rw [e2]
    simp only [rule5099, applyRule]
    rw [splitNl_joinNl hne1 h1, ← fixLine5099_eq_applyLineEdit]
  show applyRules content
      [rule5084, rule5092, rule5099, .blockReplace old1 new1, .blockReplace old2 new2] = _
  simp only [applyRules]
  rw [e3]
  simp only [applyRule, applyBlockReplace_fst, applyScripts, patchOrderController, fixJsx,
    fixLine5092_eq]

/-! ### Left-to-right replacement of the first occurrence -/

/-- Replacement processes the leftmost occurrence first: when no occurrence of
`o` starts strictly before the shown one, the replacement emits the prefix,
substitutes `n` for that occurrence, and continues on the remainder. -/
lemma replaceAll_first_occurrence (o n : Chars) :
    ∀ a b : Chars, o ≠ [] →
      (∀ k, k < a.length → o.isPrefixOf (List.drop k (a ++ o ++ b)) = false) →
      replaceAll o n (a ++ o ++ b) = a ++ n ++ replaceAll o n b := by
  intro a
  induction a with
  | nil =>
    intro b hne _
    obtain ⟨p, pt, rfl⟩ : ∃ p pt, o = p :: pt := by
      cases o with
      | nil => exact absurd rfl hne
      | cons p pt => exact ⟨p, pt, rfl⟩
    have hpre : (p :: pt).isPrefixOf (p :: (pt ++ b)) = true :=
      List.isPrefixOf_iff_prefix.mpr (List.prefix_append _ _)
    have hdrop : List.drop (p :: pt).length (p :: (pt ++ b)) = b := List.drop_left _ _
    simp only [List.nil_append, List.cons_append]
    rw [replaceAll, if_pos ⟨hpre, by simp⟩, hdrop]
  | cons x a' ih =>
    intro b hne h
    have h0 : o.isPrefixOf (x :: (a' ++ o ++ b)) = false := by
      have hx := h 0 (by simp)
      simpa using hx
    have hrec : ∀ k, k < a'.length → o.isPrefixOf (List.drop k (a' ++ o ++ b)) = false := by
      intro k hk
      have hx := h (k + 1) (by simp only [List.length_cons]; omega)
      simpa [List.drop_succ_cons] using hx
    have hcond : ¬(o.isPrefixOf (x :: (a' ++ o ++ b)) = true ∧ o ≠ []) := by
      intro hc
      rw [h0] at hc
      exact Bool.false_ne_true hc.1
    simp only [List.cons_append]
    rw [replaceAll, if_neg hcond, if_neg hne, ih b hne hrec]
    rfl

/-! ### Evaluation of the scripts on the counterexample document -/

lemma space_not_mem (n : Nat) {s : Chars} (hs : (' ' : Char) ∉ s) :
    (' ' : Char) ∉ List.replicate n '\n' ++ s := by
  intro hmem
  rcases List.mem_append.1 hmem with hm | hm
  · exact absurd (List.eq_of_mem_replicate hm) (by decide)
  · exact hs hm

/-- Both controller search texts start with a space, so they cannot occur in
content without one, and the block replacements leave such content alone. -/
lemma controller_skips {c : Chars} (h : (' ' : Char) ∉ c) :
    patchOrderController c = c := by
  have e1 : old1 = ' ' :: old1.tail := rfl
  have e2 : old2 = ' ' :: old2.tail := rfl
  rw [patchOrderController,
    replaceAll_of_not_occurs new1 (by rw [e1]; exact occursIn_eq_false_of_head _ _ h),
    replaceAll_of_not_occurs new2 (by rw [e2]; exact occursIn_eq_false_of_head _ _ h)]

lemma fixJsx_badContent :
    fixJsx badContent = List.replicate 5084 '\n' ++ str "</>" := by
  have hnl : ('\n' : Char) ∉ str "<</>/>" := by decide
  have hrp : replaceAll (str "</>") [] (str "<</>/>") = str "</>" := by
    rw [replaceAll_eq_replGo]; decide
  rw [fixJsx, badContent, splitNl_replicate_newline, splitNl_of_not_newline hnl,
    fixLine5084,
    if_pos ⟨by
      simp only [List.length_append, List.length_replicate, List.length_cons,
        List.length_nil]
      omega, by rw [getD_replicate_append]; decide⟩,
    getD_replicate_append, set_replicate_append, hrp, fixLine5092_eq,
    fixLine5099,
    if_neg (fun hcc => by
      have h5 := hcc.1
      simp only [List.length_append, List.length_replicate, List.length_cons,
        List.length_nil] at h5
      omega),
    joinNl_replicate_nil]

lemma applyScripts_badContent :
    applyScripts badContent = List.replicate 5084 '\n' ++ str "</>" := by
  rw [applyScripts, fixJsx_badContent, controller_skips (space_not_mem 5084 (by decide))]

lemma fixJsx_step2 :
    fixJsx (List.replicate 5084 '\n' ++ str "</>") = List.replicate 5084 '\n' := by
  have hnl : ('\n' : Char) ∉ str "</>" := by decide
  have hrp : replaceAll (str "</>") [] (str "</>") = [] := by
    rw [replaceAll_eq_replGo]; decide
  rw [fixJsx, splitNl_replicate_newline, splitNl_of_not_newline hnl,
    fixLine5084,
    if_pos ⟨by
      simp only [List.length_append, List.length_replicate, List.length_cons,
        List.length_nil]
      omega, by rw [getD_replicate_append]; decide⟩,
    getD_replicate_append, set_replicate_append, hrp, fixLine5092_eq,
    fixLine5099,
    if_neg (fun hcc => by
      have h5 := hcc.1
      simp only [List.length_append, List.length_replicate, List.length_cons,
        List.length_nil] at h5
      omega),
    joinNl_replicate_nil, List.append_nil]

lemma applyScripts_step2 :
    applyScripts (List.replicate 5084 '\n' ++ str "</>") = List.replicate 5084 '\n' := by
  have h : (' ' : Char) ∉ List.replicate 5084 '\n' := fun hmem =>
    absurd (List.eq_of_mem_replicate hmem) (by decide)
  rw [applyScripts, fixJsx_step2, controller_skips h]

lemma applyScripts_hello : applyScripts (str "hello") = str "hello" := by
  have hnl : ('\n' : Char) ∉ str "hello" := by decide
  rw [applyScripts, fixJsx, splitNl_of_not_newline hnl,
    fixLine5084,
    if_neg (fun hcc => by
      have h5 := hcc.1
      simp only [List.length_singleton] at h5
      omega),
    fixLine5092_eq,
    fixLine5099,
    if_neg (fun hcc => by
      have h5 := hcc.1
      simp only [List.length_singleton] at h5
      omega)]
  rw [show joinNl [str "hello"] = str "hello" from rfl]
  exact controller_skips (by decide)

/-! ### Claim theorems -/

/-- C1 (counterexample): the full ordered rule set is not idempotent. On the
5085-line document whose line at index 5084 is `"<</>/>"`, the first pass
removes the two occurrences of `"</>"` from that line, which leaves the fresh
occurrence `"</>"`, and a second pass removes that one as well, so applying
the rule set twice differs from applying it once. -/
theorem applyScripts_not_idempotent :
    applyScripts (applyScripts badContent) ≠ applyScripts badContent := by
  rw [applyScripts_badContent, applyScripts_step2]
  intro h
  have hlen := congrArg List.length h
  simp only [List.length_append, List.length_replicate] at hlen
  have : (str "</>").length = 3 := by decide
  omega

/-- C1 (amended): the full ordered rule set is idempotent on every starting
content whose once-patched result no longer matches any rule — in particular
whenever removing `'</>'` from the edited lines does not create a fresh
occurrence of a guard substring and the block replacements' search texts are
absent from the patched content. -/
theorem applyScripts_idempotent_of_noneMatches (c : Chars)
    (h : noneMatches (applyScripts c) fullRules = true) :
    applyScripts (applyScripts c) = applyScripts c := by
  rw [← applyRules_fullRules_eq (applyScripts c)]
  exact applyRules_of_noneMatches h

/-- C1 (witness): the amended idempotence at the concrete content "hello". -/
theorem applyScripts_idempotent_witness :
    noneMatches (applyScripts (str "hello")) fullRules = true ∧
      applyScripts (applyScripts (str "hello")) = applyScripts (str "hello") := by
  have h : noneMatches (applyScripts (str "hello")) fullRules = true := by
    rw [applyScripts_hello]; decide
  exact ⟨h, applyScripts_idempotent_of_noneMatches _ h⟩

/-- C2: a line edit whose index is at least the number of lines returns
`skipped` and leaves the lines unchanged, for every document, index, guard and
transformation; `applyLineEdit` is a total function, so no out-of-bounds error
is possible. -/
theorem applyLineEdit_out_of_bounds (lines : List Chars) (idx : Nat)
    (pred : Chars → Bool) (tr : Chars → Chars) (h : lines.length ≤ idx) :
    applyLineEdit lines idx pred tr = (lines, .skipped) := by
  rw [applyLineEdit, dif_neg (by omega)]

/-- C2 (witness): index 3 on a one-line document is skipped. -/
theorem applyLineEdit_out_of_bounds_witness :
    applyLineEdit [str "<>"] 3 (occursIn (str "</>")) (replaceAll (str "</>") []) =
      ([str "<>"], .skipped) :=
  applyLineEdit_out_of_bounds _ 3 _ _ (by decide)

/-- C3: `applyBlockReplace` performs literal, all-occurrence replacement:
`old = "A"`, `new = "B"` on `"AA"` gives `"BB"` with result `applied`; whenever
`old` occurs the result is the full replacement with result `applied`;
replacement consumes the leftmost occurrence and continues on the remainder;
and the match is literal, not a regular expression (a `"."` pattern only
replaces actual dots). -/
theorem applyBlockReplace_replaces_all :
    applyBlockReplace (str "AA") (str "A") (str "B") = (str "BB", .applied) ∧
      (∀ c o n : Chars, occursIn o c = true →
        applyBlockReplace c o n = (replaceAll o n c, .applied)) ∧
      (∀ a b o n : Chars, o ≠ [] →
        (∀ k, k < a.length → o.isPrefixOf (List.drop k (a ++ o ++ b)) = false) →
        replaceAll o n (a ++ o ++ b) = a ++ n ++ replaceAll o n b) ∧
      applyBlockReplace (str "a.b") (str ".") (str "!") = (str "a!b", .applied) := by
  refine ⟨?_, fun c o n h => ?_, fun a b o n => replaceAll_first_occurrence o n a b, ?_⟩
  · rw [applyBlockReplace_eval]; decide
  · rw [applyBlockReplace, if_pos h]
  · rw [applyBlockReplace_eval]; decide

/-- C3 (witness): the occurrence case and the leftmost-occurrence law at
concrete inputs. -/
theorem applyBlockReplace_replaces_all_witness :
    applyBlockReplace (str "XX") (str "X") (str "Y") =
        (replaceAll (str "X") (str "Y") (str "XX"), .applied) ∧
      replaceAll (str "Q") (str "R") (str "Z" ++ str "Q" ++ str "W") =
        str "Z" ++ str "R" ++ replaceAll (str "Q") (str "R") (str "W") :=
  ⟨applyBlockReplace_replaces_all.2.1 (str "XX") (str "X") (str "Y") (by decide),
    applyBlockReplace_replaces_all.2.2.1 (str "Z") (str "W") (str "Q") (str "R")
      (by decide) (by decide)⟩

/-- C4: applying a rule list is the left fold of single-rule application in
the given order, and on the repository's rule set this is exactly running the
line edits of fix_jsx.py first and then the two chained block replacements of
patch_order_controller.py on the already line-edited content. -/
theorem applyRules_sequential :
    (∀ (c : Chars) (rules : List PatchRule),
        applyRules c rules = rules.foldl (fun acc r => (applyRule acc r).1) c) ∧
      (∀ c : Chars, applyRules c fullRules = patchOrderController (fixJsx c)) :=
  ⟨applyRules_eq_foldl, fun c => applyRules_fullRules_eq c⟩

/-- C5: a rule whose match condition fails returns `skipped` and leaves the
content unchanged (no error is possible, rule application being total), and on
content matched by no rule the full rule set reports five `skipped` results
and returns the content byte-for-byte unchanged. -/
theorem noMatch_silent_skip :
    (∀ (c : Chars) (r : PatchRule), ruleMatches c r = false →
        applyRule c r = (c, .skipped)) ∧
      (∀ c : Chars, noneMatches c fullRules = true →
        applyRulesResults c fullRules = (c, List.replicate 5 PatchResult.skipped)) := by
  refine ⟨fun c r h => applyRule_of_not_matches h, fun c h => ?_⟩
  exact applyRulesResults_of_noneMatches h

/-- C5 (witness): the already-patched content "hello" yields five skips. -/
theorem noMatch_silent_skip_witness :
    applyRulesResults (str "hello") fullRules =
      (str "hello", List.replicate 5 PatchResult.skipped) :=
  noMatch_silent_skip.2 (str "hello") (by decide)

/-- C6: if reading the source file fails (the path is absent from the file
system), each script's run aborts before any write: the resulting file system
is exactly the original one and the run reports failure. -/
theorem read_failure_atomic :
    (∀ fs : FileSystem, fs jsxFilePath = none → runFixJsxScript fs = (fs, false)) ∧
      (∀ fs : FileSystem, fs controllerFilePath = none →
        runPatchOrderControllerScript fs = (fs, false)) := by
  constructor
  · intro fs h
    simp only [runFixJsxScript]
    rw [h]
  · intro fs h
    simp only [runPatchOrderControllerScript]
    rw [h]

/-- C6 (witness): on the empty file system both runs abort unchanged. -/
theorem read_failure_atomic_witness :
    runFixJsxScript (fun _ => none) = (fun _ => none, false) ∧
      runPatchOrderControllerScript (fun _ => none) = (fun _ => none, false) :=
  ⟨read_failure_atomic.1 _ rfl, read_failure_atomic.2 _ rfl⟩

/-- C7: splitting any content on newlines and joining the lines back with
newlines reproduces the content exactly, and applying zero rules is the
identity, so a load-then-save round trip is byte-identical. -/
theorem roundtrip_identity :
    (∀ content : Chars, joinNl (splitNl content) = content) ∧
      (∀ content : Chars, applyRules content [] = content) :=
  ⟨joinNl_splitNl, fun _ => rfl⟩

/-- C8: on the 3-line document `["<>", "text</>", "</>"]`, the line edit at
index 1 that removes `"</>"` when present yields `["<>", "text", "</>"]` with
result `applied`, and re-running the same rule on the result yields `skipped`
with the three lines unchanged. -/
theorem concrete_scenario :
    applyLineEdit [str "<>", str "text</>", str "</>"] 1 (occursIn (str "</>"))
        (replaceAll (str "</>") []) =
      ([str "<>", str "text", str "</>"], .applied) ∧
      applyLineEdit [str "<>", str "text", str "</>"] 1 (occursIn (str "</>"))
        (replaceAll (str "</>") []) =
      ([str "<>", str "text", str "</>"], .skipped) := by
  constructor <;>
  · rw [applyLineEdit_getD]
    simp only [replaceAll_eq_replGo]
    decide

/-- C9: the third line edit's guard tests `'</ >'` but its mutation removes
`'</>'`. Hence a document whose line 5099 contains `'</>'` but not `'</ >'`
is left unchanged (the guard never fires), and on a document whose line 5099
contains `'</ >'` but not `'</>'` the mutation branch runs yet changes
nothing: the removal is the identity on that line and the lines survive
unchanged. -/
theorem fixLine5099_guard_mismatch :
    (∀ lines : List Chars,
        occursIn (str "</>") (lines.getD 5099 []) = true →
        occursIn (str "</ >") (lines.getD 5099 []) = false →
        fixLine5099 lines = lines) ∧
      (∀ lines : List Chars,
        occursIn (str "</ >") (lines.getD 5099 []) = true →
        occursIn (str "</>") (lines.getD 5099 []) = false →
        replaceAll (str "</>") [] (lines.getD 5099 []) = lines.getD 5099 [] ∧
          fixLine5099 lines = lines) := by
  constructor
  · intro lines _ h2
    rw [fixLine5099, if_neg]
    intro hc
    rw [h2] at hc
    exact Bool.false_ne_true hc.2
  · intro lines _ h2
    have hr : replaceAll (str "</>") [] (lines.getD 5099 []) = lines.getD 5099 [] :=
      replaceAll_of_not_occurs _ h2
    refine ⟨hr, ?_⟩
    rw [fixLine5099]
    split
    · rw [hr, set_getD_self]
    · rfl

/-- C9 (witness): a 5100-line document whose line 5099 is `"</>"` survives
the third line edit unchanged. -/
theorem fixLine5099_guard_mismatch_witness :
    fixLine5099 (List.replicate 5099 [] ++ [str "</>"]) =
      List.replicate 5099 [] ++ [str "</>"] := by
  apply fixLine5099_guard_mismatch.1
  · rw [getD_replicate_append]; decide
  · rw [getD_replicate_append]; decide

/-- C10: the dead guarded block at line index 5092 (whose inner branch is
`pass`) never modifies the line sequence, so the fix_jsx.py pipeline equals
the pipeline without it. -/
theorem fixLine5092_dead_branch :
    (∀ lines : List Chars, fixLine5092 lines = lines) ∧
      (∀ content : Chars,
        fixJsx content = joinNl (fixLine5099 (fixLine5084 (splitNl content)))) := by
  refine ⟨fixLine5092_eq, fun content => ?_⟩
  rw [fixJsx, fixLine5092_eq]

end PatchApplier
